import Mathlib

/-!
Shallow embedding of the question-search core of `src/main.go`.

Strings: a Go string that holds valid UTF-8 is modelled as its sequence of
Unicode code points (`GoStr`). All string operations the core performs
(`strings.ToLower`, `HasPrefix`, `Contains`, `Index`, `Fields`, `TrimSpace`,
`ReplaceAll` with ASCII patterns, equality) coincide with their code-point
level counterparts on valid UTF-8 input: a byte-level match of a valid UTF-8
needle can only begin at a code-point boundary (a needle starts with a byte
below 0x80 or at least 0xC2, while every byte at a non-boundary position lies
in 0x80..0xBF), and cannot end inside a code point (a proper prefix of a
multi-byte encoding is not a complete encoding). The one place the Go code
works below the code-point level - reading the single byte in front of a
substring match in `calculateRelevance` - is modelled exactly via
`lastUtf8Byte`, the final byte of the UTF-8 encoding of the preceding code
point, which is the byte found at that position.

Numbers: the `float64` relevance scores are modelled as exact rationals. All
score values the code produces (1, 0.95, 0.9, 0.8, 0.3, 0, and the tier-5
formula) are built with `mkRat`; the tier-5 expression
`float64(matched+exact)/float64(n) * 0.7 + float64(exact) * 0.1` is modelled
by its exact rational value `(7*(matched+exact) + exact*n) / (10*n)`.
-/

/-- A Go string, as its list of Unicode code points. -/
abbrev GoStr := List Nat

/-- Code points of a Lean string literal, used to write concrete Go strings. -/
def goStr (s : String) : GoStr := s.data.map Char.toNat

/-- Number of bytes in the UTF-8 encoding of a code point. -/
def utf8Len (c : Nat) : Nat :=
  if c < 0x80 then 1 else if c < 0x800 then 2 else if c < 0x10000 then 3 else 4

/-- Byte length of a Go string (`len(s)` in Go works on UTF-8 bytes). -/
def byteLen (s : GoStr) : Nat := (s.map utf8Len).sum

/-- Final byte of the UTF-8 encoding of a code point: the encoding of `c`
ends with byte `c` itself when `c` is ASCII, and with the continuation byte
`0x80 + c % 64` otherwise. -/
def lastUtf8Byte (c : Nat) : Nat := if c < 0x80 then c else 0x80 + c % 64

/-- Models `unicode.ToLower` on one code point, as used by `strings.ToLower`
in `calculateRelevance` (main.go:351-352). ASCII letters are lowercased; all
code points of caseless scripts (such as the CJK text this program searches)
map to themselves, which the identity branch captures. Cased non-ASCII
letters are outside the scope of this model. -/
def lowerRune (c : Nat) : Nat := if 65 ≤ c ∧ c ≤ 90 then c + 32 else c

/-- Models `strings.ToLower` (main.go:351-352). -/
def goToLower (s : GoStr) : GoStr := s.map lowerRune

/-- Models `strings.Index(s, pat)` (main.go:367): position of the first
occurrence of `pat` in `s`, `none` when `pat` does not occur. Positions
count code points; on valid UTF-8 a byte-level occurrence begins and ends at
code-point boundaries, so occurrences and their order agree with Go's
byte-level scan. -/
def goIndex (pat : GoStr) : GoStr → Option Nat
  | [] => if pat.isPrefixOf ([] : GoStr) then some 0 else none
  | c :: rest =>
    if pat.isPrefixOf (c :: rest) then some 0
    else (goIndex pat rest).map (· + 1)

/-- Models `strings.Contains(s, pat)` (main.go:365, 396). -/
def goContains (s pat : GoStr) : Bool := (goIndex pat s).isSome

/-- Models `unicode.IsSpace` on a code point below 0x100, the range a single
byte cast to `rune` can produce (main.go:369-370): the Latin-1 white space
characters. -/
def isSpaceLatin1 (b : Nat) : Bool :=
  b = 9 || b = 10 || b = 11 || b = 12 || b = 13 || b = 32 || b = 0x85 || b = 0xA0

/-- Models `unicode.IsPunct` on a code point below 0x100, the range a single
byte cast to `rune` can produce (main.go:370): the Latin-1 characters of
Unicode category P. -/
def isPunctLatin1 (b : Nat) : Bool :=
  (0x21 ≤ b && b ≤ 0x23) || (0x25 ≤ b && b ≤ 0x2A) || (0x2C ≤ b && b ≤ 0x2F) ||
  b = 0x3A || b = 0x3B || b = 0x3F || b = 0x40 ||
  (0x5B ≤ b && b ≤ 0x5D) || b = 0x5F || b = 0x7B || b = 0x7D ||
  b = 0xA1 || b = 0xA7 || b = 0xAB || b = 0xB6 || b = 0xB7 || b = 0xBB || b = 0xBF

/-- Models `unicode.IsSpace` on an arbitrary code point, as used by
`strings.Fields` (main.go:378-379): the Unicode white space characters. -/
def goIsSpace (c : Nat) : Bool :=
  c = 9 || c = 10 || c = 11 || c = 12 || c = 13 || c = 32 || c = 0x85 || c = 0xA0 ||
  c = 0x1680 || (0x2000 ≤ c && c ≤ 0x200A) ||
  c = 0x2028 || c = 0x2029 || c = 0x202F || c = 0x205F || c = 0x3000

/-- Models `strings.Fields` (main.go:378-379): the maximal runs of
non-white-space code points. -/
def goFields (s : GoStr) : List GoStr :=
  (s.splitOnP goIsSpace).filter (fun t => !t.isEmpty)

/-- Inner loop of the token-overlap tier (main.go:391-401): scan the question
tokens in order; the first token equal to the keyword token yields an exact
match (`some true`), otherwise the first token containing it yields a partial
match (`some false`); `none` when no token matches. -/
def tokenMatch (qws : List GoStr) (kw : GoStr) : Option Bool :=
  match qws with
  | [] => none
  | qw :: rest =>
    if qw = kw then some true
    else if goContains qw kw then some false
    else tokenMatch rest kw

/-- Outer loop of the token-overlap tier (main.go:389-406): count partial and
exact matches over the keyword tokens, aborting with `none` as soon as one
keyword token matches no question token. The Go loop aborts at the first
unmatched token; since the abort discards the counters, folding over all
tokens with `Option` propagation returns the same result. -/
def countTokens : List GoStr → List GoStr → Option (Nat × Nat)
  | [], _ => some (0, 0)
  | kw :: kws, qws =>
    match tokenMatch qws kw with
    | none => none
    | some true => (countTokens kws qws).map (fun p => (p.1, p.2 + 1))
    | some false => (countTokens kws qws).map (fun p => (p.1 + 1, p.2))

/-- Models `calculateRelevance` (main.go:346-415). Tier order as in the
source: empty keyword, case-insensitive equality, prefix, substring with a
word-boundary check on the single byte in front of the match, token overlap.
The score constants 1.0, 0.95, 0.9, 0.8, 0.3, 0 and the tier-5 value
`base*0.7 + bonus` appear as their exact rational values. -/
def calculateRelevance (question keyword : GoStr) : ℚ :=
  if keyword = [] then 1
  else
    let questionLower := goToLower question
    let keywordLower := goToLower keyword
    if questionLower = keywordLower then 1
    else if keywordLower.isPrefixOf questionLower then mkRat 19 20
    else
      match goIndex keywordLower questionLower with
      | some index =>
        if 0 < index then
          let prevChar := lastUtf8Byte (questionLower.getD (index - 1) 0)
          if isSpaceLatin1 prevChar || isPunctLatin1 prevChar then mkRat 9 10
          else mkRat 4 5
        else mkRat 4 5
      | none =>
        let keywordWords := goFields keywordLower
        let questionWords := goFields questionLower
        if keywordWords = [] then 0
        else
          match countTokens keywordWords questionWords with
          | none => mkRat 3 10
          | some p =>
            mkRat (7 * (p.1 + p.2) + p.2 * keywordWords.length)
              (10 * keywordWords.length)

/-- One pass of `strings.ReplaceAll(s, pat, "")` with explicit fuel: at each
position, a match of `pat` is removed and the scan resumes after it,
otherwise one element is kept. Fuel `s.length` always suffices since every
step consumes at least one element. -/
def removeAllAux (pat : GoStr) : Nat → GoStr → GoStr
  | 0, s => s
  | _ + 1, [] => []
  | fuel + 1, c :: rest =>
    if !pat.isEmpty && pat.isPrefixOf (c :: rest) then
      removeAllAux pat fuel ((c :: rest).drop pat.length)
    else c :: removeAllAux pat fuel rest

/-- Models `strings.ReplaceAll(s, pat, "")` (main.go:141-147). -/
def removeAll (s pat : GoStr) : GoStr := removeAllAux pat s.length s

/-- Models `strings.TrimSpace` (main.go:148): drop white space code points
from the front, then from the back. -/
def goTrimSpace (s : GoStr) : GoStr :=
  ((s.dropWhile goIsSpace).reverse.dropWhile goIsSpace).reverse

/-- The seven noise substrings `cleanText` removes (main.go:141-147). -/
def noiseTokens : List GoStr :=
  [goStr "<p>", goStr "</p>", goStr "&ldquo", goStr "&rdquo",
   goStr "&ge", goStr "&rsquo", goStr "&nbsp"]

/-- The seven `strings.ReplaceAll` lines of `cleanText` (main.go:141-147),
in the source's order. -/
def stripNoise (text : GoStr) : GoStr :=
  removeAll (removeAll (removeAll (removeAll (removeAll (removeAll (removeAll
    text (goStr "<p>")) (goStr "</p>")) (goStr "&ldquo")) (goStr "&rdquo"))
    (goStr "&ge")) (goStr "&rsquo")) (goStr "&nbsp")

/-- Models `cleanText` (main.go:140-150): remove the seven noise substrings
in the source's order, then trim surrounding white space. -/
def cleanText (text : GoStr) : GoStr := goTrimSpace (stripNoise text)

/-- A deduplicated question record, with the fields the search core reads
(main.go:32-43). The display-only fields (uuid, score, status, answer,
choices, test result, difficulty) are not consulted by any claim and are
omitted. -/
structure QuestionItem where
  qtype : String
  title : GoStr
deriving DecidableEq

/-- Models `getQuestionTypeName` (main.go:95-106). -/
def getQuestionTypeName (t : String) : String :=
  match t with
  | "single_choice" => "单选题"
  | "choice" => "多选题"
  | "determine" => "判断题"
  | _ => t

/-- One step of the grouping loop of `getQuestionCategories`
(main.go:446-455): append the record to the bucket of its type name,
creating the bucket on first sight. The Go map of buckets is modelled as an
association list; only per-bucket insertion order is observable through
`searchQuestions`, and it is preserved. -/
def addToCategory (cats : List (String × List QuestionItem)) (name : String)
    (q : QuestionItem) : List (String × List QuestionItem) :=
  match cats with
  | [] => [(name, [q])]
  | (n, qs) :: rest =>
    if n = name then (n, qs ++ [q]) :: rest
    else (n, qs) :: addToCategory rest name q

/-- Models `getQuestionCategories` (main.go:434-458) applied to the
deduplicated record collection, taken as a list in the (arbitrary) order Go
map iteration produced it. -/
def getQuestionCategories (items : List QuestionItem) :
    List (String × List QuestionItem) :=
  items.foldl (fun cats q => addToCategory cats (getQuestionTypeName q.qtype) q) []

/-- A scored search result (main.go:263-269), with the fields the search core
writes and reads back (Title and Relevance); the display-only Info, Operator
and Type fields are not consulted by any claim and are omitted. -/
structure Result where
  title : GoStr
  relevance : ℚ
deriving DecidableEq

/-- The candidate a question record becomes (main.go:293-315): the title is
the display string `fmt.Sprintf(" %s\n", cleanText(question.Title))` - one
leading space, the cleaned title, one trailing newline - and the relevance is
`calculateRelevance` applied to that display string and the keyword. The two
Go loops (build all Results, then fill in Relevance) compose into this one
map. -/
def mkResult (keyword : GoStr) (q : QuestionItem) : Result :=
  let t : GoStr := 32 :: (cleanText q.title ++ [10])
  { title := t, relevance := calculateRelevance t keyword }

/-- Models the comparator of `sort.Slice` (main.go:318-324): descending by
relevance, and ascending by byte length of the title on equal relevance. -/
def resultLess (a b : Result) : Bool :=
  if a.relevance = b.relevance then decide (byteLen a.title < byteLen b.title)
  else decide (b.relevance < a.relevance)

/-- Models the `sort.Slice` call (main.go:318-324): a list sorted by the
comparator, so that no later element is `resultLess` than an earlier one.
`sort.Slice` promises exactly this ordering and no stability; this model
realises it with a stable insertion sort, one of the orderings `sort.Slice`
may produce. -/
def sortResults (l : List Result) : List Result :=
  List.insertionSort (fun a b => resultLess b a = false) l

/-- The category key `searchQuestions` looks up for a requested type value
(main.go:276-291); `none` is the `default` branch that returns the
"无效的题型选择" error. -/
def labelOf (qtype : String) : Option String :=
  match qtype with
  | "single_choice" => some "单选题"
  | "choice" => some "多选题"
  | "determine" => some "判断题"
  | _ => none

/-- Outcome of `searchQuestions` (main.go:271-344): a result list, the
invalid-type error, or the run-time panic that dereferencing the nil
`category` pointer causes. -/
inductive SearchOutcome where
  | ok (results : List Result)
  | invalidType
  | nilPanic
deriving DecidableEq

/-- Models `searchQuestions` (main.go:271-344). An unrecognized type value
returns the error. For a recognized type value whose bucket is absent - a
category with zero records - the Go code leaves `category` nil and then
dereferences it at `category.Questions` (main.go:293), a nil-pointer panic.
Otherwise the bucket's records are scored against the keyword, sorted, and,
for a non-empty keyword, filtered to relevance above 0.5 and capped at 20. -/
def searchQuestions (items : List QuestionItem) (qtype : String)
    (keyword : GoStr) : SearchOutcome :=
  match labelOf qtype with
  | none => SearchOutcome.invalidType
  | some label =>
    match (getQuestionCategories items).lookup label with
    | none => SearchOutcome.nilPanic
    | some bucket =>
      let sorted := sortResults (bucket.map (mkResult keyword))
      if keyword = [] then SearchOutcome.ok sorted
      else
        let filtered := sorted.filter (fun r => decide (mkRat 1 2 < r.relevance))
        SearchOutcome.ok (if 20 < filtered.length then filtered.take 20 else filtered)

/-- Modelled from the spec: a "word boundary" character, "whitespace or
punctuation" at the code-point level. White space is `goIsSpace`; for
punctuation the table covers Unicode category P over Latin-1 (exactly
`isPunctLatin1`), general punctuation (U+2010..U+2027, U+2030..U+205E), CJK
punctuation (U+3001..U+3011, U+3014..U+301F) and fullwidth punctuation; other
scripts' punctuation is not needed by any theorem below. This definition
formalises the spec's wording and is compared against the code's byte-level
check. -/
def specIsBoundaryChar (c : Nat) : Bool :=
  goIsSpace c || isPunctLatin1 c ||
  (0x2010 ≤ c && c ≤ 0x2027) || (0x2030 ≤ c && c ≤ 0x205E) ||
  (0x3001 ≤ c && c ≤ 0x3011) || (0x3014 ≤ c && c ≤ 0x301F) ||
  (0xFF01 ≤ c && c ≤ 0xFF0F && !(c = 0xFF04)) ||
  c = 0xFF1A || c = 0xFF1B || c = 0xFF1F || c = 0xFF20 ||
  (0xFF3B ≤ c && c ≤ 0xFF3D) || c = 0xFF3F || c = 0xFF5B || c = 0xFF5D ||
  (0xFF5F ≤ c && c ≤ 0xFF65)

/-- Modelled from the spec: the claim that a non-prefix substring match
scores 0.9 when the character (code point) immediately preceding the match
is white space or punctuation, and 0.8 otherwise. -/
def substringBoundaryClaim : Prop :=
  ∀ (T K : GoStr) (index : Nat), K ≠ [] →
    ¬ (goToLower K).isPrefixOf (goToLower T) = true →
    goIndex (goToLower K) (goToLower T) = some index →
    calculateRelevance T K =
      if specIsBoundaryChar ((goToLower T).getD (index - 1) 0)
      then mkRat 9 10 else mkRat 4 5

/-! Helper lemmas about the string model. -/

theorem isPrefixOf_self (l : GoStr) : l.isPrefixOf l = true := by
  induction l with
  | nil => rfl
  | cons c t ih => simp [List.isPrefixOf, ih]

theorem goIndex_of_isPrefixOf {pat s : GoStr} (h : pat.isPrefixOf s = true) :
    goIndex pat s = some 0 := by
  cases s with
  | nil => simp [goIndex, h]
  | cons c rest => simp [goIndex, h]

theorem goIndex_pos_of_not_isPrefixOf {pat s : GoStr} {n : Nat}
    (hpre : ¬ pat.isPrefixOf s = true) (h : goIndex pat s = some n) : 0 < n := by
  cases s with
  | nil => simp [goIndex, hpre] at h
  | cons c rest =>
    simp only [goIndex, if_neg hpre, Option.map_eq_some'] at h
    obtain ⟨m, -, rfl⟩ := h
    omega

theorem goContains_eq_false_iff {s pat : GoStr} :
    goContains s pat = false ↔ goIndex pat s = none := by
  unfold goContains
  cases goIndex pat s <;> simp

/-- C8: the Scorer's first three tiers hold in strict priority order: empty
keyword scores 1, case-insensitive equality scores 1, and a proper
case-insensitive prefix (with the earlier tiers not applicable) scores
0.95. -/
theorem topTiersScore :
    (∀ T : GoStr, calculateRelevance T [] = 1)
    ∧ (∀ T K : GoStr, goToLower T = goToLower K → calculateRelevance T K = 1)
    ∧ (∀ T K : GoStr, K ≠ [] → (goToLower K).isPrefixOf (goToLower T) = true →
        goToLower T ≠ goToLower K → calculateRelevance T K = 19 / 20) := by
  refine ⟨fun T => by simp [calculateRelevance], fun T K h => ?_,
    fun T K hK hpre hne => ?_⟩
  · by_cases hK : K = []
    · subst hK; simp [calculateRelevance]
    · simp [calculateRelevance, hK, h]
  · have h19 : (mkRat 19 20 : ℚ) = 19 / 20 := by rw [Rat.mkRat_eq_div]; norm_num
    simp [calculateRelevance, hK, hne, hpre, h19]

theorem topTiersScoreWitness :
    calculateRelevance (goStr "x") [] = 1
    ∧ calculateRelevance (goStr "Abc") (goStr "aBC") = 1
    ∧ calculateRelevance (goStr "abcd") (goStr "AB") = 19 / 20 :=
  ⟨topTiersScore.1 (goStr "x"),
   topTiersScore.2.1 (goStr "Abc") (goStr "aBC") (by decide),
   topTiersScore.2.2 (goStr "abcd") (goStr "AB") (by decide) (by decide) (by decide)⟩

/-- C1: evaluating the search pipeline at spec scenario A. The Ranker does
not score the normalized title: it scores the display string with its
leading space and trailing newline, so the candidate whose normalized title
the keyword is a proper prefix of receives 0.9 (boundary substring), while
the Scorer applied to the normalized title itself would give 0.95. -/
theorem rankerScoresDecoratedTitle :
    searchQuestions [⟨"single_choice", goStr "计算机网络基础概念"⟩] "single_choice"
        (goStr "计算机网络")
      = SearchOutcome.ok [⟨goStr " 计算机网络基础概念\n", mkRat 9 10⟩]
    ∧ calculateRelevance (cleanText (goStr "计算机网络基础概念")) (goStr "计算机网络")
      = mkRat 19 20
    ∧ mkRat 9 10 ≠ mkRat 19 20 := by decide

/-- C2: a recognized requested type whose category holds zero records does
not yield an empty result list: the category lookup misses, `category` stays
nil, and the iteration over `category.Questions` is a nil-pointer panic. -/
theorem emptyCategoryNilPanic :
    searchQuestions [⟨"single_choice", goStr "操作系统原理"⟩] "determine" []
      = SearchOutcome.nilPanic
    ∧ SearchOutcome.nilPanic ≠ SearchOutcome.ok [] := by decide

/-- C9: a pair in the token-overlap tier (the keyword is not a substring of
the text) whose score exceeds 1: four keyword tokens all matching text
tokens exactly give 0.7 + 4 * 0.1 = 1.1. -/
theorem tokenOverlapExceedsOne :
    goIndex (goToLower (goStr "a b c d")) (goToLower (goStr "d c b a")) = none
    ∧ calculateRelevance (goStr "d c b a") (goStr "a b c d") = mkRat 11 10
    ∧ (1 : ℚ) < calculateRelevance (goStr "d c b a") (goStr "a b c d") := by decide

/-- C5 (counterexample): the claim that a non-prefix substring match scores
0.9 exactly when the character immediately preceding the match is white
space or punctuation is false: in "上计算机" / "算机" the preceding character
is the letter 计 (U+8BA1), no boundary, yet the code scores 0.9 because the
final UTF-8 byte of 计 is 0xA1, which reads as the punctuation ¡ when taken
alone. -/
theorem boundaryCheckCharClaimFalse : ¬ substringBoundaryClaim := by
  intro h
  exact absurd (h (goStr "上计算机") (goStr "算机") 2 (by decide) (by decide) (by decide))
    (by decide)

/-- C5 (amended): for a non-prefix substring match the code inspects the
single byte in front of the byte position of the match - the final UTF-8
byte of the preceding character - read as a Latin-1 code point: 0.9 when
that byte value is white space or punctuation, 0.8 otherwise. For an ASCII
preceding character this coincides with the original claim. -/
theorem boundaryCheckByteLevel :
    ∀ (T K : GoStr) (index : Nat), K ≠ [] →
      ¬ (goToLower K).isPrefixOf (goToLower T) = true →
      goIndex (goToLower K) (goToLower T) = some index →
      calculateRelevance T K =
        if isSpaceLatin1 (lastUtf8Byte ((goToLower T).getD (index - 1) 0))
            || isPunctLatin1 (lastUtf8Byte ((goToLower T).getD (index - 1) 0))
        then 9 / 10 else 4 / 5 := by
  intro T K index hK hpre hidx
  have hne : goToLower T ≠ goToLower K := by
    intro he
    exact hpre (by rw [he]; exact isPrefixOf_self _)
  have hpos : 0 < index := goIndex_pos_of_not_isPrefixOf hpre hidx
  have h910 : (mkRat 9 10 : ℚ) = 9 / 10 := by rw [Rat.mkRat_eq_div]; norm_num
  have h45 : (mkRat 4 5 : ℚ) = 4 / 5 := by rw [Rat.mkRat_eq_div]; norm_num
  simp [calculateRelevance, hK, hne, hpre, hidx, hpos]
  split
  · exact h910
  · exact h45

theorem boundaryCheckByteLevelWitness :
    calculateRelevance (goStr "上计算机") (goStr "算机") = 9 / 10 := by
  have h := boundaryCheckByteLevel (goStr "上计算机") (goStr "算机") 2
    (by decide) (by decide) (by decide)
  rw [h]
  have hb : (isSpaceLatin1 (lastUtf8Byte ((goToLower (goStr "上计算机")).getD (2 - 1) 0))
      || isPunctLatin1 (lastUtf8Byte ((goToLower (goStr "上计算机")).getD (2 - 1) 0)))
      = true := by decide
  rw [hb]
  simp

theorem tokenMatch_eq_none_iff (qws : List GoStr) (kw : GoStr) :
    tokenMatch qws kw = none ↔ ∀ qw ∈ qws, qw ≠ kw ∧ goContains qw kw = false := by
  induction qws with
  | nil => simp [tokenMatch]
  | cons qw rest ih =>
    by_cases h1 : qw = kw
    · subst h1
      simp only [tokenMatch, if_pos rfl]
      constructor
      · intro h; exact Option.noConfusion h
      · intro h; exact absurd rfl (h qw (List.mem_cons_self _ _)).1
    · by_cases h2 : goContains qw kw = true
      · simp only [tokenMatch, if_neg h1, if_pos h2]
        constructor
        · intro h; exact Option.noConfusion h
        · intro h
          exact Bool.noConfusion (((h qw (List.mem_cons_self _ _)).2).symm.trans h2)
      · have h2' : goContains qw kw = false := Bool.eq_false_iff.2 h2
        simp [tokenMatch, h1, h2, h2', ih, List.forall_mem_cons]

theorem countTokens_eq_none_iff (kws qws : List GoStr) :
    countTokens kws qws = none ↔ ∃ kw ∈ kws, tokenMatch qws kw = none := by
  induction kws with
  | nil => simp [countTokens]
  | cons kw kws ih =>
    cases h : tokenMatch qws kw with
    | none =>
      simp only [countTokens, h]
      exact iff_of_true (by trivial) ⟨kw, List.mem_cons_self _ _, h⟩
    | some b =>
      cases b <;>
        simp [countTokens, h, ih, Option.map_eq_none', List.mem_cons]

/-- C6: in the token-overlap tier (keyword not a substring of the text), one
keyword token matching no text token - neither by equality nor by
containment - forces the score 0.3; when every keyword token matches, the
score is `((partial + exact) / tokens) * 0.7 + exact * 0.1` with the counts
the loop produces. -/
theorem tokenOverlapScore :
    ∀ T K : GoStr, K ≠ [] → goIndex (goToLower K) (goToLower T) = none →
      ((∃ kw ∈ goFields (goToLower K), ∀ qw ∈ goFields (goToLower T),
          qw ≠ kw ∧ goContains qw kw = false) →
        calculateRelevance T K = 3 / 10)
      ∧ (goFields (goToLower K) ≠ [] →
        (∀ kw ∈ goFields (goToLower K), ∃ qw ∈ goFields (goToLower T),
            qw = kw ∨ goContains qw kw = true) →
        ∃ m e : Nat,
          countTokens (goFields (goToLower K)) (goFields (goToLower T)) = some (m, e)
          ∧ calculateRelevance T K =
              ((m : ℚ) + e) / ((goFields (goToLower K)).length) * (7 / 10)
              + (e : ℚ) * (1 / 10)) := by
  intro T K hK hnone
  have hnpre : ¬ (goToLower K).isPrefixOf (goToLower T) = true := by
    intro hp
    rw [goIndex_of_isPrefixOf hp] at hnone
    cases hnone
  have hne : goToLower T ≠ goToLower K := by
    intro he
    rw [he, goIndex_of_isPrefixOf (isPrefixOf_self _)] at hnone
    cases hnone
  constructor
  · rintro ⟨kw, hkw, hall⟩
    have hkws : goFields (goToLower K) ≠ [] := by
      intro h0; rw [h0] at hkw; cases hkw
    have hcnone : countTokens (goFields (goToLower K)) (goFields (goToLower T)) = none :=
      (countTokens_eq_none_iff _ _).2 ⟨kw, hkw, (tokenMatch_eq_none_iff _ _).2 hall⟩
    have h310 : (mkRat 3 10 : ℚ) = 3 / 10 := by rw [Rat.mkRat_eq_div]; norm_num
    simp [calculateRelevance, hK, hne, hnpre, hnone, hkws, hcnone, h310]
  · intro hkws hall
    have hcsome : countTokens (goFields (goToLower K)) (goFields (goToLower T)) ≠ none := by
      intro hc
      obtain ⟨kw, hmem, htm⟩ := (countTokens_eq_none_iff _ _).1 hc
      obtain ⟨qw, hqw, hor⟩ := hall kw hmem
      have hq := (tokenMatch_eq_none_iff _ _).1 htm qw hqw
      rcases hor with h | h
      · exact hq.1 h
      · exact Bool.noConfusion (hq.2.symm.trans h)
    cases hcount : countTokens (goFields (goToLower K)) (goFields (goToLower T)) with
    | none => exact absurd hcount hcsome
    | some p =>
      refine ⟨p.1, p.2, rfl, ?_⟩
      have hlen : (goFields (goToLower K)).length ≠ 0 := by
        intro h0; exact hkws (List.length_eq_zero.1 h0)
      have hn0 : (((goFields (goToLower K)).length : ℚ)) ≠ 0 := Nat.cast_ne_zero.2 hlen
      simp only [calculateRelevance, if_neg hK, if_neg hne, if_neg hnpre, hnone,
        if_neg hkws, hcount]
      rw [Rat.mkRat_eq_div]
      push_cast
      field_simp
      ring

theorem tokenOverlapScoreWitness :
    calculateRelevance (goStr "操作 xt系统") (goStr "系统 操作") = 4 / 5 := by
  obtain ⟨m, e, hc, hs⟩ :=
    (tokenOverlapScore (goStr "操作 xt系统") (goStr "系统 操作") (by decide) (by decide)).2
      (by decide) (by decide)
  have hme : (m, e) = (1, 1) := Option.some.inj (by rw [← hc]; decide)
  have hm : m = 1 := congrArg Prod.fst hme
  have he : e = 1 := congrArg Prod.snd hme
  subst hm
  subst he
  rw [hs]
  norm_num [show (goFields (goToLower (goStr "系统 操作"))).length = 2 from by decide]

theorem goIndex_cons_eq_none {pat : GoStr} {c : Nat} {rest : GoStr}
    (h : goIndex pat (c :: rest) = none) :
    pat.isPrefixOf (c :: rest) = false ∧ goIndex pat rest = none := by
  by_cases hp : pat.isPrefixOf (c :: rest) = true
  · rw [goIndex_of_isPrefixOf hp] at h
    cases h
  · refine ⟨Bool.eq_false_iff.2 hp, ?_⟩
    simp only [goIndex, if_neg hp, Option.map_eq_none'] at h
    exact h

theorem removeAllAux_eq_self {pat : GoStr} :
    ∀ (fuel : Nat) (s : GoStr), goContains s pat = false →
      removeAllAux pat fuel s = s := by
  intro fuel
  induction fuel with
  | zero => intro s _; rfl
  | succ fuel ih =>
    intro s hs
    cases s with
    | nil => rfl
    | cons c rest =>
      obtain ⟨hp, hrest⟩ := goIndex_cons_eq_none (goContains_eq_false_iff.1 hs)
      have hcond : (!pat.isEmpty && pat.isPrefixOf (c :: rest)) = false := by
        rw [hp, Bool.and_false]
      simp only [removeAllAux, hcond, Bool.false_eq_true, if_false]
      exact congrArg (c :: ·) (ih rest (goContains_eq_false_iff.2 hrest))

theorem removeAll_eq_self {s pat : GoStr} (h : goContains s pat = false) :
    removeAll s pat = s :=
  removeAllAux_eq_self s.length s h

theorem dropWhile_head_false {p : Nat → Bool} :
    ∀ {l : GoStr} {a : Nat}, (l.dropWhile p).head? = some a → p a = false := by
  intro l
  induction l with
  | nil => intro a h; cases h
  | cons c t ih =>
    intro a h
    by_cases hc : p c = true
    · rw [List.dropWhile_cons, if_pos hc] at h
      exact ih h
    · rw [List.dropWhile_cons, if_neg hc] at h
      obtain rfl : c = a := Option.some.inj h
      exact Bool.eq_false_iff.2 hc

theorem dropWhile_eq_self_of_head {p : Nat → Bool} {l : GoStr}
    (h : ∀ a, l.head? = some a → p a = false) : l.dropWhile p = l := by
  cases l with
  | nil => rfl
  | cons c t => rw [List.dropWhile_cons, if_neg (by simp [h c rfl])]

theorem dropWhile_idem {p : Nat → Bool} (l : GoStr) :
    (l.dropWhile p).dropWhile p = l.dropWhile p :=
  dropWhile_eq_self_of_head (fun _ ha => dropWhile_head_false ha)

theorem getLast?_of_suffix {l₁ l₂ : GoStr} (h : l₁ <:+ l₂) (hne : l₁ ≠ []) :
    l₁.getLast? = l₂.getLast? := by
  obtain ⟨t, rfl⟩ := h
  exact (List.getLast?_append_of_ne_nil t hne).symm

theorem goTrimSpace_idem (s : GoStr) :
    goTrimSpace (goTrimSpace s) = goTrimSpace s := by
  unfold goTrimSpace
  set A := s.dropWhile goIsSpace with hA
  set B := A.reverse.dropWhile goIsSpace with hB
  by_cases hBnil : B = []
  · rw [hBnil]
    simp
  · have h1 : B.reverse.dropWhile goIsSpace = B.reverse := by
      apply dropWhile_eq_self_of_head
      intro a ha
      rw [List.head?_reverse] at ha
      rw [getLast?_of_suffix (List.dropWhile_suffix _) hBnil] at ha
      rw [List.getLast?_reverse] at ha
      rw [hA] at ha
      exact dropWhile_head_false ha
    have h2 : B.reverse.reverse.dropWhile goIsSpace = B := by
      rw [List.reverse_reverse, hB]
      exact dropWhile_idem _
    rw [h1, h2]

theorem stripNoise_eq_self {s : GoStr}
    (h : ∀ pat ∈ noiseTokens, goContains s pat = false) : stripNoise s = s := by
  unfold stripNoise
  rw [removeAll_eq_self (h _ (by decide)), removeAll_eq_self (h _ (by decide)),
    removeAll_eq_self (h _ (by decide)), removeAll_eq_self (h _ (by decide)),
    removeAll_eq_self (h _ (by decide)), removeAll_eq_self (h _ (by decide)),
    removeAll_eq_self (h _ (by decide))]

/-- C4 (counterexample): the Text Normalizer is not idempotent: one removal
pass over "<<p>p>" splices the fragments around the removed "<p>" into a new
"<p>", which a second pass removes. -/
theorem cleanTextNotIdempotent :
    cleanText (goStr "<<p>p>") = goStr "<p>"
    ∧ cleanText (cleanText (goStr "<<p>p>")) = goStr ""
    ∧ cleanText (cleanText (goStr "<<p>p>")) ≠ cleanText (goStr "<<p>p>") := by decide

/-- C4 (amended): the Text Normalizer is idempotent on every input whose
normalized form contains none of the seven noise substrings - in particular
whenever one removal pass does not splice surrounding fragments into a new
noise substring. -/
theorem cleanTextIdempotentOnStable :
    ∀ s : GoStr, (∀ pat ∈ noiseTokens, goContains (cleanText s) pat = false) →
      cleanText (cleanText s) = cleanText s := by
  intro s h
  show goTrimSpace (stripNoise (cleanText s)) = cleanText s
  rw [stripNoise_eq_self h]
  show goTrimSpace (goTrimSpace (stripNoise s)) = goTrimSpace (stripNoise s)
  exact goTrimSpace_idem _

theorem cleanTextIdempotentOnStableWitness :
    cleanText (cleanText (goStr "  <p>操作系统&nbsp原理</p>  "))
      = cleanText (goStr "  <p>操作系统&nbsp原理</p>  ") :=
  cleanTextIdempotentOnStable _ (by decide)

/-- C7: with a non-empty keyword every returned result has relevance above
0.5 and at most 20 results are returned; with an empty keyword the full
sorted candidate list of the requested category is returned, unfiltered and
uncapped. -/
theorem thresholdAndCap :
    ∀ (items : List QuestionItem) (qtype : String) (keyword : GoStr)
      (results : List Result),
      searchQuestions items qtype keyword = SearchOutcome.ok results →
        (keyword ≠ [] →
          (∀ r ∈ results, (1 : ℚ) / 2 < r.relevance) ∧ results.length ≤ 20)
        ∧ (keyword = [] → ∃ label bucket,
            labelOf qtype = some label
            ∧ (getQuestionCategories items).lookup label = some bucket
            ∧ results = sortResults (bucket.map (mkResult keyword))
            ∧ results.length = bucket.length) := by
  intro items qtype keyword results h
  simp only [searchQuestions] at h
  split at h
  · cases h
  next label hl =>
    split at h
    · cases h
    next bucket hb =>
      by_cases hk : keyword = []
      · rw [if_pos hk] at h
        have hres : results = sortResults (bucket.map (mkResult keyword)) :=
          (SearchOutcome.ok.inj h).symm
        refine ⟨fun hne => absurd hk hne, fun _ => ⟨label, bucket, hl, hb, hres, ?_⟩⟩
        rw [hres]
        have hperm := List.perm_insertionSort
          (fun a b => resultLess b a = false) (bucket.map (mkResult keyword))
        calc (sortResults (bucket.map (mkResult keyword))).length
            = (bucket.map (mkResult keyword)).length := hperm.length_eq
          _ = bucket.length := List.length_map _ _
      · rw [if_neg hk] at h
        have hres : results
            = (if 20 < ((sortResults (bucket.map (mkResult keyword))).filter
                  (fun r => decide (mkRat 1 2 < r.relevance))).length
               then ((sortResults (bucket.map (mkResult keyword))).filter
                  (fun r => decide (mkRat 1 2 < r.relevance))).take 20
               else (sortResults (bucket.map (mkResult keyword))).filter
                  (fun r => decide (mkRat 1 2 < r.relevance))) :=
          (SearchOutcome.ok.inj h).symm
        refine ⟨fun _ => ⟨?_, ?_⟩, fun hke => absurd hke hk⟩
        · intro r hr
          rw [hres] at hr
          have hrf : r ∈ (sortResults (bucket.map (mkResult keyword))).filter
              (fun r => decide (mkRat 1 2 < r.relevance)) := by
            by_cases hlen : 20 < ((sortResults (bucket.map (mkResult keyword))).filter
                (fun r => decide (mkRat 1 2 < r.relevance))).length
            · rw [if_pos hlen] at hr
              exact List.mem_of_mem_take hr
            · rwa [if_neg hlen] at hr
          have hdec := List.of_mem_filter hrf
          have hlt := of_decide_eq_true hdec
          have h12 : (mkRat 1 2 : ℚ) = 1 / 2 := by rw [Rat.mkRat_eq_div]; norm_num
          rwa [h12] at hlt
        · rw [hres]
          by_cases hlen : 20 < ((sortResults (bucket.map (mkResult keyword))).filter
              (fun r => decide (mkRat 1 2 < r.relevance))).length
          · rw [if_pos hlen, List.length_take]
            exact min_le_left _ _
          · rw [if_neg hlen]
            omega

theorem thresholdAndCapWitness :
    (∀ r ∈ [Result.mk (goStr " 操作系统原理\n") (mkRat 9 10)],
        (1 : ℚ) / 2 < r.relevance)
    ∧ [Result.mk (goStr " 操作系统原理\n") (mkRat 9 10)].length ≤ 20 :=
  (thresholdAndCap
    [⟨"single_choice", goStr "操作系统原理"⟩, ⟨"single_choice", goStr "数据库系统"⟩]
    "single_choice" (goStr "操作系统")
    [Result.mk (goStr " 操作系统原理\n") (mkRat 9 10)] (by decide)).1 (by decide)

theorem addToCategory_join_perm (cats : List (String × List QuestionItem))
    (name : String) (q : QuestionItem) :
    (((addToCategory cats name q).map Prod.snd).flatten).Perm
      ((cats.map Prod.snd).flatten ++ [q]) := by
  induction cats with
  | nil => simp [addToCategory]
  | cons ep rest ih =>
    obtain ⟨n, qs⟩ := ep
    by_cases h : n = name
    · simp only [addToCategory, if_pos h, List.map_cons, List.flatten_cons]
      rw [List.append_assoc, List.append_assoc]
      exact List.Perm.append_left qs List.perm_append_comm
    · simp only [addToCategory, if_neg h, List.map_cons, List.flatten_cons]
      rw [List.append_assoc]
      exact ih.append_left qs

theorem addToCategory_labels :
    ∀ (cats : List (String × List QuestionItem)) (name : String) (q : QuestionItem),
      (∀ e ∈ cats, ∀ x ∈ e.2, getQuestionTypeName x.qtype = e.1) →
      getQuestionTypeName q.qtype = name →
      ∀ e ∈ addToCategory cats name q, ∀ x ∈ e.2,
        getQuestionTypeName x.qtype = e.1 := by
  intro cats
  induction cats with
  | nil =>
    intro name q _ hq e he x hx
    simp only [addToCategory, List.mem_singleton] at he
    subst he
    simp only [List.mem_singleton] at hx
    subst hx
    exact hq
  | cons ep rest ih =>
    obtain ⟨n, qs⟩ := ep
    intro name q h hq e he x hx
    by_cases hn : n = name
    · simp only [addToCategory, if_pos hn, List.mem_cons] at he
      rcases he with rfl | he
      · simp only [List.mem_append, List.mem_singleton] at hx
        rcases hx with hx | rfl
        · exact h (n, qs) (List.mem_cons_self _ _) x hx
        · rw [hq]
          exact hn.symm
      · exact h e (List.mem_cons_of_mem _ he) x hx
    · simp only [addToCategory, if_neg hn, List.mem_cons] at he
      rcases he with rfl | he
      · exact h (n, qs) (List.mem_cons_self _ _) x hx
      · exact ih name q (fun e' he' => h e' (List.mem_cons_of_mem _ he')) hq e he x hx

theorem addToCategory_keys (cats : List (String × List QuestionItem))
    (name : String) (q : QuestionItem) :
    (addToCategory cats name q).map Prod.fst
      = if name ∈ cats.map Prod.fst then cats.map Prod.fst
        else cats.map Prod.fst ++ [name] := by
  induction cats with
  | nil => simp [addToCategory]
  | cons ep rest ih =>
    obtain ⟨n, qs⟩ := ep
    by_cases hn : n = name
    · simp [addToCategory, hn]
    · have hne : ¬ name = n := fun h => hn h.symm
      by_cases hmem : name ∈ rest.map Prod.fst
      · simp [addToCategory, hn, ih, hmem, hne]
      · simp [addToCategory, hn, ih, hmem, hne]

theorem addToCategory_keys_nodup {cats : List (String × List QuestionItem)}
    {name : String} {q : QuestionItem}
    (h : (cats.map Prod.fst).Nodup) :
    ((addToCategory cats name q).map Prod.fst).Nodup := by
  rw [addToCategory_keys]
  by_cases hmem : name ∈ cats.map Prod.fst
  · rwa [if_pos hmem]
  · rw [if_neg hmem]
    simp [List.nodup_append, h, hmem]

theorem categoriesFold_invariant :
    ∀ (items : List QuestionItem) (acc : List (String × List QuestionItem)),
      (∀ e ∈ acc, ∀ x ∈ e.2, getQuestionTypeName x.qtype = e.1) →
      ((acc.map Prod.fst).Nodup) →
      (∀ e ∈ items.foldl
          (fun cats q => addToCategory cats (getQuestionTypeName q.qtype) q) acc,
        ∀ x ∈ e.2, getQuestionTypeName x.qtype = e.1)
      ∧ ((items.foldl
          (fun cats q => addToCategory cats (getQuestionTypeName q.qtype) q) acc).map
            Prod.fst).Nodup
      ∧ (((items.foldl
          (fun cats q => addToCategory cats (getQuestionTypeName q.qtype) q) acc).map
            Prod.snd).flatten).Perm ((acc.map Prod.snd).flatten ++ items) := by
  intro items
  induction items with
  | nil =>
    intro acc h1 h2
    exact ⟨h1, h2, by simp⟩
  | cons q items ih =>
    intro acc h1 h2
    rw [List.foldl_cons]
    obtain ⟨g1, g2, g3⟩ := ih (addToCategory acc (getQuestionTypeName q.qtype) q)
      (addToCategory_labels _ _ _ h1 rfl) (addToCategory_keys_nodup h2)
    refine ⟨g1, g2, g3.trans ?_⟩
    have hstep := addToCategory_join_perm acc (getQuestionTypeName q.qtype) q
    refine (hstep.append_right items).trans ?_
    rw [List.append_assoc]
    exact List.Perm.refl _

/-- C10: the Category Index partitions the record collection: the
concatenation of all buckets is a permutation of the input records, every
record sits only in the bucket carrying its own type label, and bucket
labels are pairwise distinct - so each record appears in exactly one
bucket. -/
theorem categoryPartition :
    ∀ items : List QuestionItem,
      (((getQuestionCategories items).map Prod.snd).flatten).Perm items
      ∧ (∀ e ∈ getQuestionCategories items, ∀ x ∈ e.2,
          getQuestionTypeName x.qtype = e.1)
      ∧ ((getQuestionCategories items).map Prod.fst).Nodup := by
  intro items
  obtain ⟨g1, g2, g3⟩ := categoriesFold_invariant items [] (by simp) (by simp)
  exact ⟨by simpa [getQuestionCategories] using g3, g1, g2⟩

theorem categoryPartitionWitness :
    getQuestionTypeName
        (QuestionItem.mk "single_choice" (goStr "网络分层模型")).qtype = "单选题" :=
  (categoryPartition
      [⟨"single_choice", goStr "网络分层模型"⟩, ⟨"determine", goStr "判断正误"⟩]).2.1
    ("单选题", [⟨"single_choice", goStr "网络分层模型"⟩]) (by decide)
    (QuestionItem.mk "single_choice" (goStr "网络分层模型")) (by decide)
